import Mathlib

/-!
Verification of the hangman game (`src/main.rs`).

This file gives a shallow embedding of the game's pure core — word state,
letter-guess evaluation, win/lose detection, the play-loop step, frame-index
selection, frame-line composition and frame-file parsing — and proves the
specified properties about it.

Modelling conventions:
* Rust `i32` counters are embedded as `Int` (values stay far from the `i32`
  range in all claims, so wrap-around never matters).
* Rust `char` is embedded as Lean `Char` (both are Unicode scalar values).
* `char::to_ascii_lowercase` is embedded exactly (`toAsciiLowercase`).
  `c.to_lowercase().next().unwrap()` (full Unicode lowercasing) coincides with
  `to_ascii_lowercase` on ASCII characters, the only characters the program's
  input validation lets through as guesses; it is embedded by the same ASCII
  function (`lowercaseFirst`), the full Unicode case table being outside the
  embedded fragment.
* I/O (prompts, stdin, file reads) is stripped: functions receive the read
  data as arguments and the embedded play step receives the guessed character.
-/

/-- Models Rust `char::to_ascii_lowercase`: maps `A`–`Z` to `a`–`z` and leaves
every other character unchanged. -/
def toAsciiLowercase (c : Char) : Char :=
  if 'A' ≤ c ∧ c ≤ 'Z' then Char.ofNat (c.toNat + 32) else c

/-- Models the Rust expression `c.to_lowercase().next().unwrap()`: the first
character of the Unicode lowercase mapping. On ASCII characters this equals
`to_ascii_lowercase`; the program only feeds ASCII guesses into it (see the
guard in `play`), and the embedding identifies the two. -/
def lowercaseFirst (c : Char) : Char :=
  toAsciiLowercase c

/-- Models `const STEPS: i32 = 7`. -/
def STEPS : Int := 7

/-- Models `struct Letter { letter: char, status: bool }`: one position of the
secret word with its reveal flag (`status = true` means revealed). -/
structure Letter where
  letter : Char
  status : Bool
deriving DecidableEq, Repr

/-- Models `struct GameManager { word, already_guessed, steps_left }`. -/
structure GameManager where
  word : List Letter
  already_guessed : List Char
  steps_left : Int
deriving DecidableEq, Repr

namespace GameManager

/-- The body of the `for i in 0..self.word.len()` loop of `check_letter`,
turned into structural recursion over the letter list.  `target` is the
lowercased guess used in the comparison (`letter.to_ascii_lowercase()`),
`pushVal` the value pushed into the guess history on each match
(`letter.to_lowercase().next().unwrap()`).  Returns the updated letters, the
history entries pushed (in position order), and the `found` flag. -/
def checkLetterLoop (target pushVal : Char) : List Letter → List Letter × List Char × Bool
  | [] => ([], [], false)
  | l :: ls =>
    let r := checkLetterLoop target pushVal ls
    if lowercaseFirst l.letter == target then
      ({ l with status := true } :: r.1, pushVal :: r.2.1, true)
    else
      (l :: r.1, r.2.1, r.2.2)

/-- Models `GameManager::check_letter`: marks every position whose lowercased
character equals the lowercased guess as revealed, pushes the lowercased guess
into `already_guessed` once per match, and returns whether any position
matched. -/
def check_letter (gm : GameManager) (letter : Char) : GameManager × Bool :=
  let r := checkLetterLoop (toAsciiLowercase letter) (lowercaseFirst letter) gm.word
  ({ gm with word := r.1, already_guessed := gm.already_guessed ++ r.2.1 }, r.2.2)

/-- Models `GameManager::check_win`: every position is revealed. -/
def check_win (gm : GameManager) : Bool :=
  gm.word.all (·.status)

/-- Models `GameManager::check_lose`: the step counter is exactly zero. -/
def check_lose (gm : GameManager) : Bool :=
  gm.steps_left == 0

/-- Models `GameManager::print_word`: with `end = true` the full word, else the
masked word with unrevealed positions replaced by `_`. -/
def print_word (gm : GameManager) (endOfGame : Bool) : String :=
  if endOfGame then
    String.mk (gm.word.map (·.letter))
  else
    String.mk (gm.word.map fun l => if l.status then l.letter else '_')

/-- Models `GameManager::init_word`: clears the letter list and pushes one
`Letter` per character of the word, spaces pre-revealed.  The push loop is
embedded as a `foldl` that appends to the cleared list. -/
def init_word (gm : GameManager) (w : String) : GameManager :=
  { gm with word := w.data.foldl (fun acc c => acc ++ [{ letter := c, status := c == ' ' }]) [] }

/-- Models `GameManager::flush`: reset the counter to `STEPS` and clear the
word and the guess history. -/
def flush (gm : GameManager) : GameManager :=
  { gm with steps_left := STEPS, word := [], already_guessed := [] }

end GameManager

/-- Result of one iteration of the `loop` in `GameManager::play`: continue
looping, break with "You won!", or break with "You lost!". -/
inductive PlayOutcome
  | next
  | won
  | lost
deriving DecidableEq, Repr

namespace GameManager

/-- Models one iteration of the `loop` body of `GameManager::play`, applied to
the guessed character (the first character of the line read by `ask`).
The Rust guard `letter.is_alphabetic() && letter.to_string().len() == 1`
accepts exactly the ASCII alphabetic characters (a 1-byte UTF-8 character is
ASCII, and on ASCII `is_alphabetic` is `Char.isAlpha`); it is embedded as
`letter.isAlpha && letter.utf8Size == 1`, which has the same truth value for
every character. -/
def play_step (gm : GameManager) (letter : Char) : GameManager × PlayOutcome :=
  if letter.isAlpha && letter.utf8Size == 1 then
    if gm.already_guessed.contains (lowercaseFirst letter) then
      (gm, PlayOutcome.next)
    else
      let r := gm.check_letter letter
      let gm2 :=
        if r.2 then r.1
        else { r.1 with
                 already_guessed := r.1.already_guessed ++ [lowercaseFirst letter],
                 steps_left := r.1.steps_left - 1 }
      if gm2.check_win then (gm2, PlayOutcome.won)
      else if gm2.check_lose then (gm2, PlayOutcome.lost)
      else (gm2, PlayOutcome.next)
  else
    (gm, PlayOutcome.next)

/-- Models `GameManager::play` as a run of `play_step` over a list of guessed
characters: the loop stops at the first `won`/`lost` outcome, or runs out of
scripted input (`none`). -/
def play_run (gm : GameManager) : List Char → GameManager × Option PlayOutcome
  | [] => (gm, none)
  | c :: cs =>
    let r := gm.play_step c
    match r.2 with
    | PlayOutcome.next => r.1.play_run cs
    | o => (r.1, some o)

end GameManager

/-- Models `" ".repeat(n)` from `generate_frame`. -/
def spacesRepeat (n : Nat) : String :=
  String.mk (List.replicate n ' ')

/-- Models `let frame_index = if steps > 7 { 0 } else { 7 - steps }` from
`generate_frame` (`steps` is a `usize`, so the subtraction is the truncated
one, exactly `Nat` subtraction). -/
def frame_index (steps : Nat) : Nat :=
  if steps > 7 then 0 else 7 - steps

/-- Models the `word_frame` line of `generate_frame`:
`format!("# {}{}{} #", " ".repeat((25 - len) / 2), word, " ".repeat((25 - len) / 2 + (25 - len) % 2))`.
Rust's `word.len()` is the UTF-8 byte length; the masked words the program
builds are ASCII, where it equals the character count `word.length`. -/
def word_frame (word : String) : String :=
  "# " ++ spacesRepeat ((25 - word.length) / 2) ++ word
    ++ spacesRepeat ((25 - word.length) / 2 + (25 - word.length) % 2) ++ " #"

/-- Models the final `format!` of `generate_frame`, with the parsed frames
passed in as data (the source re-reads them from `frames.txt` and exits on a
read failure or an empty frame list; the out-of-range panic of
`frames[frame_index]` is outside the claims, and the embedding totalises the
lookup with `getD`). -/
def generate_frame (steps : Nat) (word : String) (frames : List (List String)) : String :=
  let header := "########## Hangman ##########"
  let footer := "########## " ++ toString steps ++ " steps ##########"
  header ++ "\n" ++ String.intercalate "\n" (frames.getD (frame_index steps) [])
    ++ "\n" ++ word_frame word ++ "\n" ++ footer

/-- Models `line.starts_with('-')`: the first character of the line is `-`. -/
def startsWithDash (line : String) : Bool :=
  line.data.head? == some '-'

/-- The `for line in lines` loop of `read_frames_from_file`, turned into
structural recursion: `current` is the in-progress frame buffer; a line whose
first character is `-` flushes a non-empty buffer as a frame, any other line
is appended to the buffer. -/
def readFramesLoop : List String → List String → List (List String)
  | [], current => if current.isEmpty then [] else [current]
  | line :: rest, current =>
    if startsWithDash line then
      if current.isEmpty then readFramesLoop rest []
      else current :: readFramesLoop rest []
    else
      readFramesLoop rest (current ++ [line])

/-- Models `read_frames_from_file` on the successfully read lines of the file
(the `io::Result` layer and per-line read errors are I/O glue outside the
embedding). -/
def read_frames (lines : List String) : List (List String) :=
  readFramesLoop lines []

/-- Models `str::trim`: removes leading and trailing whitespace.  Rust trims
Unicode `White_Space`; on ASCII input this is `Char.isWhitespace`. -/
def rust_trim (s : String) : String :=
  String.mk (((s.data.dropWhile Char.isWhitespace).reverse.dropWhile Char.isWhitespace).reverse)

/-- Models `str::to_lowercase` on ASCII strings (the prompt answers compared
against `"y"`/`"n"`/`""`): character-wise ASCII lowercasing. -/
def rust_to_lowercase (s : String) : String :=
  String.mk (s.data.map toAsciiLowercase)

/-- The three ways the `match` in `GameManager::choose_word` can go. -/
inductive WordSource
  | defaultDictionary
  | manualEntry
  | askAgain
deriving DecidableEq, Repr

/-- Models the `match dictionary_or_not.trim().to_lowercase().as_str()` in
`GameManager::choose_word`: `"y" | ""` takes the default dictionary, `"n"`
enters the manual-word loop, anything else prints a message and recurses into
the same prompt. -/
def choose_word_dispatch (input : String) : WordSource :=
  let s := rust_to_lowercase (rust_trim input)
  if s == "y" || s == "" then WordSource.defaultDictionary
  else if s == "n" then WordSource.manualEntry
  else WordSource.askAgain

/-- Models the replay check in `GameManager::start_game`: the session
continues if and only if `play_again.trim().to_lowercase()` equals `"y"`
(otherwise the loop breaks with "Goodbye!"). -/
def play_again_continues (input : String) : Bool :=
  rust_to_lowercase (rust_trim input) == "y"

-- Scratch sanity checks (loop behaviour on concrete data).
example :
    (GameManager.check_letter ⟨[⟨'C', false⟩, ⟨'a', false⟩, ⟨'c', false⟩], [], 7⟩ 'c').2 = true := by
  decide

example :
    (GameManager.check_letter ⟨[⟨'C', false⟩, ⟨'a', false⟩, ⟨'c', false⟩], [], 7⟩ 'C').1.already_guessed
      = ['c', 'c'] := by decide

example :
    (GameManager.check_letter ⟨[⟨'c', false⟩], [], 7⟩ 'z').1.word = [⟨'c', false⟩] := by decide

example :
    GameManager.play_step ⟨[⟨'c', false⟩, ⟨'a', false⟩, ⟨'t', false⟩], [], 7⟩ 'z'
      = (⟨[⟨'c', false⟩, ⟨'a', false⟩, ⟨'t', false⟩], ['z'], 6⟩, PlayOutcome.next) := by decide

example :
    (GameManager.play_step ⟨[⟨'c', false⟩], [], 1⟩ 'z').2 = PlayOutcome.lost := by decide

example :
    (GameManager.play_step ⟨[⟨'c', false⟩, ⟨'a', true⟩], ['a'], 4⟩ 'C').2 = PlayOutcome.won := by
  decide

example :
    read_frames ["a", "b", "-x", "c", "--", "-", "d"] = [["a", "b"], ["c"], ["d"]] := by decide

example : choose_word_dispatch "  \n" = WordSource.defaultDictionary := by decide
example : choose_word_dispatch "Y\n" = WordSource.defaultDictionary := by decide
example : choose_word_dispatch "n" = WordSource.manualEntry := by decide
example : choose_word_dispatch "maybe" = WordSource.askAgain := by decide
example : play_again_continues "" = false := by decide
example : play_again_continues " Y \n" = true := by decide

example : word_frame "____" = "# " ++ spacesRepeat 10 ++ "____" ++ spacesRepeat 11 ++ " #" := by
  decide

/-! ### Characterisation of the `check_letter` loop -/

theorem checkLetterLoop_word (target pushVal : Char) (ls : List Letter) :
    (GameManager.checkLetterLoop target pushVal ls).1
      = ls.map (fun l => if lowercaseFirst l.letter == target then { l with status := true } else l) := by
  induction ls with
  | nil => rfl
  | cons l ls ih =>
    simp only [GameManager.checkLetterLoop, List.map_cons]
    split <;> simp_all

theorem checkLetterLoop_pushes (target pushVal : Char) (ls : List Letter) :
    (GameManager.checkLetterLoop target pushVal ls).2.1
      = List.replicate (ls.countP (fun l => lowercaseFirst l.letter == target)) pushVal := by
  induction ls with
  | nil => rfl
  | cons l ls ih =>
    simp only [GameManager.checkLetterLoop, List.countP_cons]
    split <;> simp_all [List.replicate_succ]

theorem checkLetterLoop_found (target pushVal : Char) (ls : List Letter) :
    (GameManager.checkLetterLoop target pushVal ls).2.2
      = ls.any (fun l => lowercaseFirst l.letter == target) := by
  induction ls with
  | nil => rfl
  | cons l ls ih =>
    simp only [GameManager.checkLetterLoop, List.any_cons]
    split <;> simp_all

/-- Marking the matching positions of a word with no matching position changes
nothing. -/
theorem map_mark_of_no_match {target : Char} {ls : List Letter}
    (h : ls.any (fun l => lowercaseFirst l.letter == target) = false) :
    ls.map (fun l => if lowercaseFirst l.letter == target then { l with status := true } else l)
      = ls := by
  induction ls with
  | nil => rfl
  | cons l ls ih =>
    simp only [List.any_cons, Bool.or_eq_false_iff] at h
    have h1 : lowercaseFirst l.letter ≠ target := by simpa using h.1
    have h2 : ls.map (fun l =>
        if lowercaseFirst l.letter = target then { l with status := true } else l) = ls := by
      simpa using ih h.2
    simp [h1, h2]

/-! ### Characterisation of one iteration of the play loop -/

theorem play_step_fst_steps_left (gm : GameManager) (c : Char) :
    (gm.play_step c).1.steps_left =
      if c.isAlpha && c.utf8Size == 1 then
        if gm.already_guessed.contains (lowercaseFirst c) then gm.steps_left
        else if gm.word.any (fun l => lowercaseFirst l.letter == toAsciiLowercase c) then
          gm.steps_left
        else gm.steps_left - 1
      else gm.steps_left := by
  simp only [GameManager.play_step, GameManager.check_letter, checkLetterLoop_found]
  split_ifs <;> simp_all

theorem play_step_fst_word (gm : GameManager) (c : Char) :
    (gm.play_step c).1.word =
      if c.isAlpha && c.utf8Size == 1 then
        if gm.already_guessed.contains (lowercaseFirst c) then gm.word
        else gm.word.map (fun l =>
          if lowercaseFirst l.letter == toAsciiLowercase c then { l with status := true } else l)
      else gm.word := by
  simp only [GameManager.play_step, GameManager.check_letter, checkLetterLoop_found,
    checkLetterLoop_word]
  split_ifs with h1 h2 h3 <;> simp_all [map_mark_of_no_match]

theorem play_step_fst_already_guessed (gm : GameManager) (c : Char) :
    (gm.play_step c).1.already_guessed =
      if c.isAlpha && c.utf8Size == 1 then
        if gm.already_guessed.contains (lowercaseFirst c) then gm.already_guessed
        else if gm.word.any (fun l => lowercaseFirst l.letter == toAsciiLowercase c) then
          gm.already_guessed
            ++ List.replicate
              (gm.word.countP fun l => lowercaseFirst l.letter == toAsciiLowercase c)
              (lowercaseFirst c)
        else gm.already_guessed ++ [lowercaseFirst c]
      else gm.already_guessed := by
  simp only [GameManager.play_step, GameManager.check_letter, checkLetterLoop_found,
    checkLetterLoop_pushes]
  split_ifs with h1 h2 h3 <;> simp_all [List.countP_eq_zero]

theorem play_step_snd (gm : GameManager) (c : Char) :
    (gm.play_step c).2 =
      if c.isAlpha && c.utf8Size == 1 then
        if gm.already_guessed.contains (lowercaseFirst c) then PlayOutcome.next
        else if (gm.play_step c).1.check_win then PlayOutcome.won
        else if (gm.play_step c).1.check_lose then PlayOutcome.lost
        else PlayOutcome.next
      else PlayOutcome.next := by
  simp only [GameManager.play_step]
  split_ifs <;> simp_all

theorem play_step_next_not_zero (gm : GameManager) (c : Char)
    (hout : (gm.play_step c).2 = PlayOutcome.next) :
    (gm.play_step c).1.steps_left = gm.steps_left ∨ (gm.play_step c).1.steps_left ≠ 0 := by
  have hs := play_step_fst_steps_left gm c
  have ho := play_step_snd gm c
  simp only [GameManager.check_lose, beq_iff_eq] at ho
  rw [ho] at hout
  split_ifs at hs hout <;>
    first
      | exact absurd hout (by decide)
      | (left; omega)
      | (right; assumption)

theorem play_step_steps_left_bounds (gm : GameManager) (c : Char)
    (h1 : 0 < gm.steps_left) (h2 : gm.steps_left ≤ 7) :
    0 ≤ (gm.play_step c).1.steps_left ∧ (gm.play_step c).1.steps_left ≤ 7 := by
  have hs := play_step_fst_steps_left gm c
  split_ifs at hs <;> omega

theorem play_run_steps_left_bounds (cs : List Char) :
    ∀ gm : GameManager, 0 < gm.steps_left → gm.steps_left ≤ 7 →
      0 ≤ (gm.play_run cs).1.steps_left ∧ (gm.play_run cs).1.steps_left ≤ 7 := by
  induction cs with
  | nil => intro gm h1 h2; simp only [GameManager.play_run]; omega
  | cons c cs ih =>
    intro gm h1 h2
    have hb := play_step_steps_left_bounds gm c h1 h2
    simp only [GameManager.play_run]
    cases hout : (gm.play_step c).2 with
    | next =>
      have hpos : 0 < (gm.play_step c).1.steps_left := by
        rcases play_step_next_not_zero gm c hout with h | h <;> omega
      exact ih _ hpos hb.2
    | won => exact hb
    | lost => exact hb

/-! ### Characterisation of the frame-file parser -/

theorem modifyHead_nil_append {α : Type} (l : List (List α)) :
    l.modifyHead (fun x => [] ++ x) = l := by
  cases l <;> simp

theorem readFramesLoop_eq_splitOnP (lines : List String) :
    ∀ current : List String,
      readFramesLoop lines current
        = (((lines.splitOnP startsWithDash).modifyHead (current ++ ·)).filter
            fun f => !f.isEmpty) := by
  induction lines with
  | nil =>
    intro current
    cases current <;> simp [readFramesLoop]
  | cons line rest ih =>
    intro current
    simp only [readFramesLoop, List.splitOnP_cons]
    by_cases hd : startsWithDash line = true
    · simp only [hd, if_true]
      have ihe := ih []
      rw [modifyHead_nil_append] at ihe
      cases current with
      | nil => simp [ihe]
      | cons a as => simp [ihe]
    · simp only [hd, if_false, Bool.false_eq_true]
      rw [ih (current ++ [line]), List.modifyHead_modifyHead]
      have hfun : ((current ++ ·) ∘ (List.cons line)) = ((current ++ [line]) ++ ·) := by
        funext x
        simp
      rw [hfun]

theorem readFramesLoop_frames (lines : List String) :
    ∀ current : List String, (∀ l ∈ current, startsWithDash l = false) →
      ∀ f ∈ readFramesLoop lines current,
        f ≠ [] ∧ ∀ l ∈ f, startsWithDash l = false := by
  induction lines with
  | nil =>
    intro current hcur f hf
    cases current with
    | nil => simp [readFramesLoop] at hf
    | cons a as =>
      simp [readFramesLoop] at hf
      subst hf
      exact ⟨by simp, hcur⟩
  | cons line rest ih =>
    intro current hcur f hf
    simp only [readFramesLoop] at hf
    by_cases hd : startsWithDash line = true
    · rw [if_pos hd] at hf
      cases current with
      | nil => exact ih [] (by simp) f (by simpa using hf)
      | cons a as =>
        simp only [List.isEmpty_cons, if_false, Bool.false_eq_true] at hf
        rcases List.mem_cons.mp hf with rfl | hf2
        · exact ⟨by simp, hcur⟩
        · exact ih [] (by simp) f hf2
    · rw [if_neg hd] at hf
      refine ih (current ++ [line]) ?_ f hf
      intro l hl
      rcases List.mem_append.mp hl with h | h
      · exact hcur l h
      · simp only [List.mem_singleton] at h
        subst h
        simpa using hd

/-- The push loop of `init_word`, expressed as a `map`. -/
theorem foldl_push_letters (w : List Char) :
    ∀ acc : List Letter,
      w.foldl (fun acc c => acc ++ [{ letter := c, status := c == ' ' }]) acc
        = acc ++ w.map (fun c => { letter := c, status := c == ' ' }) := by
  induction w with
  | nil => intro acc; simp
  | cons c w ih => intro acc; simp [ih]

/-! ### Claim theorems -/

/-- C1: `check_letter` returns `true` iff at least one position's lowercased
character equals the lowercased guess; it sets `revealed` (`status`) on
exactly the matching positions and leaves every non-matching position
unchanged; in particular, when the guess is not present it returns `false`
and no flag changes. -/
theorem check_letter_hits_exactly_matches (gm : GameManager) (c : Char) :
    ((gm.check_letter c).2 = true
        ↔ ∃ l ∈ gm.word, lowercaseFirst l.letter = toAsciiLowercase c)
      ∧ (gm.check_letter c).1.word
          = gm.word.map (fun l =>
              if lowercaseFirst l.letter == toAsciiLowercase c then { l with status := true }
              else l)
      ∧ ((∀ l ∈ gm.word, lowercaseFirst l.letter ≠ toAsciiLowercase c) →
          (gm.check_letter c).2 = false ∧ (gm.check_letter c).1.word = gm.word) := by
  have hf : (gm.check_letter c).2
      = gm.word.any (fun l => lowercaseFirst l.letter == toAsciiLowercase c) := by
    simp [GameManager.check_letter, checkLetterLoop_found]
  have hw : (gm.check_letter c).1.word
      = gm.word.map (fun l =>
          if lowercaseFirst l.letter == toAsciiLowercase c then { l with status := true }
          else l) := by
    simp [GameManager.check_letter, checkLetterLoop_word]
  refine ⟨?_, hw, ?_⟩
  · rw [hf]
    simp [List.any_eq_true]
  · intro h
    have hany : gm.word.any (fun l => lowercaseFirst l.letter == toAsciiLowercase c) = false := by
      simp only [List.any_eq_false]
      intro x hx
      simpa using h x hx
    exact ⟨by rw [hf, hany], by rw [hw, map_mark_of_no_match hany]⟩

/-- C1 witness: a word not containing the guess keeps its flags and reports a
miss. -/
theorem check_letter_hits_exactly_matches_witness :
    (GameManager.check_letter ⟨[⟨'c', false⟩], [], 7⟩ 'z').2 = false
      ∧ (GameManager.check_letter ⟨[⟨'c', false⟩], [], 7⟩ 'z').1.word = [⟨'c', false⟩] :=
  (check_letter_hits_exactly_matches ⟨[⟨'c', false⟩], [], 7⟩ 'z').2.2 (by decide)

/-- C10: one `check_letter` call appends the lowercased guess to the guess
history once per matching position — `k` occurrences of the letter in the word
produce `k` duplicate history entries in a single call. -/
theorem check_letter_duplicate_history (gm : GameManager) (c : Char) :
    (gm.check_letter c).1.already_guessed
      = gm.already_guessed
        ++ List.replicate
          (gm.word.countP fun l => lowercaseFirst l.letter == toAsciiLowercase c)
          (lowercaseFirst c) := by
  simp [GameManager.check_letter, checkLetterLoop_pushes]

/-- C5: after `init_word w` the letter sequence has one entry per character of
`w` in order, spaces are pre-revealed and everything else unrevealed, and
`print_word true` returns exactly `w`. -/
theorem init_word_round_trip (gm : GameManager) (w : String) :
    (gm.init_word w).word = w.data.map (fun c => { letter := c, status := c == ' ' })
      ∧ (gm.init_word w).word.length = w.length
      ∧ (∀ l ∈ (gm.init_word w).word, l.status = (l.letter == ' '))
      ∧ (gm.init_word w).print_word true = w := by
  have hw : (gm.init_word w).word
      = w.data.map (fun c => { letter := c, status := c == ' ' }) := by
    simp [GameManager.init_word, foldl_push_letters]
  refine ⟨hw, ?_, ?_, ?_⟩
  · rw [hw, List.length_map]
    rfl
  · rw [hw]
    intro l hl
    rcases List.mem_map.mp hl with ⟨a, _, rfl⟩
    rfl
  · rw [GameManager.print_word]
    simp only [if_true, hw, List.map_map]
    have : ((fun l : Letter => l.letter) ∘ fun c => { letter := c, status := c == ' ' })
        = fun c : Char => c := by
      funext x
      rfl
    rw [this, List.map_id']

/-- C5 witness: the round trip on the word `"ab c"` (with its pre-revealed
space). -/
theorem init_word_round_trip_witness :
    (GameManager.init_word ⟨[], [], 7⟩ "ab c").print_word true = "ab c"
      ∧ (⟨' ', true⟩ : Letter).status = ((⟨' ', true⟩ : Letter).letter == ' ') := by
  have h := init_word_round_trip ⟨[], [], 7⟩ "ab c"
  exact ⟨h.2.2.2, h.2.2.1 ⟨' ', true⟩ (by decide)⟩

/-- C4 counterexample: over arbitrary word states the equivalence fails — a
word state holding a revealed `'_'` character satisfies `check_win` while its
masked rendering still contains `'_'`. -/
theorem check_win_underscore_counterexample :
    ¬ ((GameManager.check_win ⟨[⟨'_', true⟩], [], 7⟩) = true
        ↔ '_' ∉ (GameManager.print_word ⟨[⟨'_', true⟩], [], 7⟩ false).data) := by
  decide

/-- C4 (amended): for every word state in which no revealed position holds the
character `'_'` — true of every state the game builds, since `init_word` only
pre-reveals spaces and guesses reveal the guessed letter — `check_win` returns
`true` iff the masked rendering `print_word false` contains no `'_'`
character. -/
theorem check_win_iff_no_underscore (gm : GameManager)
    (h : ∀ l ∈ gm.word, l.status = true → l.letter ≠ '_') :
    gm.check_win = true ↔ '_' ∉ (gm.print_word false).data := by
  rw [GameManager.check_win, GameManager.print_word]
  simp only [if_false, Bool.false_eq_true, List.all_eq_true]
  constructor
  · intro hall hmem
    rcases List.mem_map.mp hmem with ⟨l, hl, heq⟩
    have hst : l.status = true := hall l hl
    rw [hst, if_pos rfl] at heq
    exact h l hl hst heq
  · intro hmem l hl
    by_contra hst
    refine hmem (List.mem_map.mpr ⟨l, hl, ?_⟩)
    rw [if_neg hst]

/-- C4 witness: a fully revealed ordinary word on one side, its underscore-free
rendering on the other. -/
theorem check_win_iff_no_underscore_witness :
    GameManager.check_win ⟨[⟨'c', true⟩, ⟨'a', false⟩], [], 7⟩ = true
      ↔ '_' ∉ (GameManager.print_word ⟨[⟨'c', true⟩, ⟨'a', false⟩], [], 7⟩ false).data :=
  check_win_iff_no_underscore ⟨[⟨'c', true⟩, ⟨'a', false⟩], [], 7⟩ (by decide)

/-- C2: from any loop state with `0 < steps_left ≤ 7` (established at entry by
`flush`, which sets `steps_left = 7`), one play-loop iteration keeps
`steps_left` in `0..=7`; the counter changes only by exactly one and only when
a not-previously-guessed legal letter matches zero positions; the loop
continues only with a positive counter and reports a loss as soon as the
counter reaches `0`; and a whole run from a flushed state keeps the counter in
`0..=7`. -/
theorem play_attempt_budget_invariant (gm : GameManager) (c : Char)
    (h1 : 0 < gm.steps_left) (h2 : gm.steps_left ≤ 7) :
    (0 ≤ (gm.play_step c).1.steps_left ∧ (gm.play_step c).1.steps_left ≤ 7)
      ∧ ((gm.play_step c).1.steps_left ≠ gm.steps_left
          ↔ ((c.isAlpha && c.utf8Size == 1) = true
              ∧ lowercaseFirst c ∉ gm.already_guessed
              ∧ ∀ l ∈ gm.word, lowercaseFirst l.letter ≠ toAsciiLowercase c))
      ∧ ((gm.play_step c).1.steps_left ≠ gm.steps_left →
          (gm.play_step c).1.steps_left = gm.steps_left - 1)
      ∧ ((gm.play_step c).2 = PlayOutcome.next → 0 < (gm.play_step c).1.steps_left)
      ∧ (gm.check_win = false → (gm.play_step c).1.steps_left = 0 →
          (gm.play_step c).2 = PlayOutcome.lost)
      ∧ (gm.flush).steps_left = 7
      ∧ (gm.steps_left = 7 → ∀ cs : List Char,
          0 ≤ (gm.play_run cs).1.steps_left ∧ (gm.play_run cs).1.steps_left ≤ 7) := by
  have hs := play_step_fst_steps_left gm c
  refine ⟨play_step_steps_left_bounds gm c h1 h2, ?_, ?_, ?_, ?_, rfl, ?_⟩
  · -- the counter moves exactly on a fresh legal miss
    split_ifs at hs with hg hc hm
    · constructor
      · intro hne
        exact absurd hs hne
      · rintro ⟨-, hnm, -⟩
        have : lowercaseFirst c ∈ gm.already_guessed := by simpa using hc
        exact absurd this hnm
    · rcases List.any_eq_true.mp hm with ⟨l, hl, he⟩
      constructor
      · intro hne
        exact absurd hs hne
      · rintro ⟨-, -, hall⟩
        exact absurd (by simpa using he) (hall l hl)
    · constructor
      · intro _
        refine ⟨hg, fun hmm => hc (by simpa using hmm), fun l hl hle => ?_⟩
        have : gm.word.any (fun l => lowercaseFirst l.letter == toAsciiLowercase c) = true :=
          List.any_eq_true.mpr ⟨l, hl, by simpa using hle⟩
        exact hm this
      · intro _
        omega
    · constructor
      · intro hne
        exact absurd hs hne
      · rintro ⟨hg2, -, -⟩
        exact absurd hg2 hg
  · intro hne
    split_ifs at hs <;> omega
  · intro hnext
    have hb := play_step_steps_left_bounds gm c h1 h2
    rcases play_step_next_not_zero gm c hnext with h | h <;> omega
  · intro hwin hzero
    have ho := play_step_snd gm c
    have hwd := play_step_fst_word gm c
    by_cases hg : (c.isAlpha && c.utf8Size == 1) = true
    · by_cases hc : gm.already_guessed.contains (lowercaseFirst c) = true
      · rw [if_pos hg, if_pos hc] at hs
        omega
      · by_cases hm :
            gm.word.any (fun l => lowercaseFirst l.letter == toAsciiLowercase c) = true
        · rw [if_pos hg, if_neg hc, if_pos hm] at hs
          omega
        · have hm2 :
              gm.word.any (fun l => lowercaseFirst l.letter == toAsciiLowercase c) = false := by
            simpa using hm
          have hword : (gm.play_step c).1.word = gm.word := by
            rw [hwd, if_pos hg, if_neg hc]
            exact map_mark_of_no_match hm2
          have hwin2 : (gm.play_step c).1.check_win = false := by
            rw [GameManager.check_win, hword]
            rw [GameManager.check_win] at hwin
            exact hwin
          have hlose2 : (gm.play_step c).1.check_lose = true := by
            rw [GameManager.check_lose, hzero]
            rfl
          rw [ho, if_pos hg, if_neg hc, if_neg (by simp [hwin2]), if_pos hlose2]
    · rw [if_neg hg] at hs
      omega
  · intro hst cs
    exact play_run_steps_left_bounds cs gm (by omega) (by omega)

/-- C2 witness: a fresh miss at `steps_left = 1` lands on `0` and the
iteration reports the loss; the bounds hold. -/
theorem play_attempt_budget_invariant_witness :
    (0 ≤ (GameManager.play_step ⟨[⟨'c', false⟩], [], 1⟩ 'z').1.steps_left
        ∧ (GameManager.play_step ⟨[⟨'c', false⟩], [], 1⟩ 'z').1.steps_left ≤ 7)
      ∧ (GameManager.play_step ⟨[⟨'c', false⟩], [], 1⟩ 'z').2 = PlayOutcome.lost := by
  have h := play_attempt_budget_invariant ⟨[⟨'c', false⟩], [], 1⟩ 'z' (by decide) (by decide)
  exact ⟨h.1, h.2.2.2.2.1 (by decide) (by decide)⟩

/-- C3: when the play loop processes a letter whose lowercase form is not in
the history, the lowercase letter enters the history whether the guess hit or
missed, and `steps_left` drops by exactly one iff the guess matched zero
positions (a hit leaves it unchanged). -/
theorem play_unique_guess_bookkeeping (gm : GameManager) (c : Char)
    (hg : (c.isAlpha && c.utf8Size == 1) = true)
    (hn : lowercaseFirst c ∉ gm.already_guessed) :
    lowercaseFirst c ∈ (gm.play_step c).1.already_guessed
      ∧ ((gm.play_step c).1.steps_left = gm.steps_left - 1
          ↔ ∀ l ∈ gm.word, lowercaseFirst l.letter ≠ toAsciiLowercase c)
      ∧ ((∃ l ∈ gm.word, lowercaseFirst l.letter = toAsciiLowercase c) →
          (gm.play_step c).1.steps_left = gm.steps_left) := by
  have hc : ¬(gm.already_guessed.contains (lowercaseFirst c) = true) := by simpa using hn
  have ha := play_step_fst_already_guessed gm c
  have hs := play_step_fst_steps_left gm c
  rw [if_pos hg, if_neg hc] at ha hs
  by_cases hm : gm.word.any (fun l => lowercaseFirst l.letter == toAsciiLowercase c) = true
  · rcases List.any_eq_true.mp hm with ⟨l, hl, he⟩
    refine ⟨?_, ?_, fun _ => by rw [hs, if_pos hm]⟩
    · rw [ha, if_pos hm]
      refine List.mem_append.mpr (Or.inr (List.mem_replicate.mpr ⟨?_, rfl⟩))
      have : 0 < gm.word.countP (fun l => lowercaseFirst l.letter == toAsciiLowercase c) :=
        List.countP_pos_iff.mpr ⟨l, hl, he⟩
      omega
    · rw [hs, if_pos hm]
      constructor
      · intro heq
        omega
      · intro hall
        exact absurd (by simpa using he) (hall l hl)
  · refine ⟨?_, ?_, ?_⟩
    · rw [ha, if_neg hm]
      exact List.mem_append.mpr (Or.inr (List.mem_singleton.mpr rfl))
    · rw [hs, if_neg hm]
      have hm2 := (Bool.not_eq_true _).mp hm
      simp only [List.any_eq_false] at hm2
      constructor
      · intro _ l hl
        simpa using hm2 l hl
      · intro _
        rfl
    · rintro ⟨l, hl, he⟩
      exact absurd (List.any_eq_true.mpr ⟨l, hl, by simpa using he⟩) hm

/-- C3 witness: a fresh legal miss on the word `"cat"` records `z` and costs
one step. -/
theorem play_unique_guess_bookkeeping_witness :
    lowercaseFirst 'Z'
        ∈ (GameManager.play_step ⟨[⟨'c', false⟩, ⟨'a', false⟩, ⟨'t', false⟩], [], 7⟩ 'Z').1.already_guessed
      ∧ (GameManager.play_step ⟨[⟨'c', false⟩, ⟨'a', false⟩, ⟨'t', false⟩], [], 7⟩ 'Z').1.steps_left = 6 := by
  have h := play_unique_guess_bookkeeping ⟨[⟨'c', false⟩, ⟨'a', false⟩, ⟨'t', false⟩], [], 7⟩ 'Z'
    (by decide) (by decide)
  refine ⟨h.1, ?_⟩
  have h2 := h.2.1.mpr (by decide)
  rw [h2]
  decide

/-- C6: the selected frame index is `0` for `steps > 7` and `7 - steps`
otherwise; in particular `7 ↦ 0`, `0 ↦ 7` and `8 ↦ 0`, and the index stays in
`0..=7`. -/
theorem frame_index_selection (steps : Nat) :
    (7 < steps → frame_index steps = 0)
      ∧ (steps ≤ 7 → frame_index steps = 7 - steps)
      ∧ frame_index steps ≤ 7
      ∧ frame_index 7 = 0 ∧ frame_index 0 = 7 ∧ frame_index 8 = 0 := by
  refine ⟨?_, ?_, ?_, by decide, by decide, by decide⟩
  · intro h
    rw [frame_index, if_pos h]
  · intro h
    rw [frame_index, if_neg (by omega)]
  · rw [frame_index]
    split_ifs <;> omega

/-- C6 witness: three remaining steps select frame `7 - 3`. -/
theorem frame_index_selection_witness : frame_index 3 = 7 - 3 :=
  (frame_index_selection 3).2.1 (by decide)

/-- C7: for a masked word of length at most 25, the composed word line is
`"# "`, `⌊(25-len)/2⌋` spaces, the word, `⌈(25-len)/2⌉` spaces, `" #"`; a
length-4 word gets left pad 10 and right pad 11. -/
theorem word_frame_padding (word : String) (h : word.length ≤ 25) :
    word_frame word
        = "# " ++ spacesRepeat ((25 - word.length) / 2) ++ word
          ++ spacesRepeat ((25 - word.length + 1) / 2) ++ " #"
      ∧ (word.length = 4 →
          word_frame word = "# " ++ spacesRepeat 10 ++ word ++ spacesRepeat 11 ++ " #") := by
  have hpad : (25 - word.length) / 2 + (25 - word.length) % 2 = (25 - word.length + 1) / 2 := by
    omega
  constructor
  · rw [word_frame, hpad]
  · intro h4
    rw [word_frame, h4]

/-- C7 witness: the length-4 masked word `"____"` gets pads 10 and 11. -/
theorem word_frame_padding_witness :
    word_frame "____" = "# " ++ spacesRepeat 10 ++ "____" ++ spacesRepeat 11 ++ " #" :=
  (word_frame_padding "____" (by decide)).2 (by decide)

/-- C8: the parsed frames are exactly the non-empty chunks of the input lines
split at lines whose first character is `-`, in input order; no frame is empty
and no frame contains a delimiter line. -/
theorem read_frames_grouping (lines : List String) :
    read_frames lines = ((lines.splitOnP startsWithDash).filter fun f => !f.isEmpty)
      ∧ (∀ f ∈ read_frames lines, f ≠ [] ∧ ∀ l ∈ f, startsWithDash l = false) := by
  constructor
  · rw [read_frames, readFramesLoop_eq_splitOnP lines [], modifyHead_nil_append]
  · exact readFramesLoop_frames lines [] (by simp)

/-- C8 witness: consecutive delimiters produce no empty frame, and a produced
frame is non-empty and delimiter-free. -/
theorem read_frames_grouping_witness :
    read_frames ["a", "-", "-", "b"] = [["a"], ["b"]]
      ∧ ["a"] ≠ ([] : List String) ∧ startsWithDash "a" = false := by
  have h := read_frames_grouping ["a", "-", "-", "b"]
  have h2 := h.2 ["a"] (by decide)
  exact ⟨by decide, h2.1, h2.2 "a" (by decide)⟩

/-- C9: an answer that trims to the empty string is accepted as "yes" at the
"use default dictionary?" prompt (it takes the dictionary path rather than the
re-prompt path), while at the replay prompt the same empty answer ends the
session. -/
theorem empty_answer_prompt_asymmetry (s : String) (h : rust_trim s = "") :
    choose_word_dispatch s = WordSource.defaultDictionary
      ∧ play_again_continues s = false := by
  have hl : rust_to_lowercase (rust_trim s) = "" := by
    rw [h]
    rfl
  constructor
  · simp [choose_word_dispatch, hl]
  · simp [play_again_continues, hl]

/-- C9 witness: the bare newline read for an empty answer. -/
theorem empty_answer_prompt_asymmetry_witness :
    choose_word_dispatch "\n" = WordSource.defaultDictionary
      ∧ play_again_continues "\n" = false :=
  empty_answer_prompt_asymmetry "\n" (by decide)
